import Mathlib

/-!
Verification of the async-iterator combinator library in
`src/001_async_iterator_practice.ts`.

The four combinators under specification are `mapAsyncIterator`,
`filterAsyncIterator`, `mergeAsyncIterators` and `limitConcurrency`.
The embedding below models:

* an async sequence that completes without failure as the `List` of
  values it yields, in order (retrieval suspension does not affect the
  value-level contract of `map`/`filter`, which are strictly sequential);
* the nondeterminism of promise-settlement order (for `merge` and
  `limitConcurrency`) as an explicit schedule function `Nat → Nat`
  choosing, at each event-loop turn, which in-flight promise settles;
* the single-threaded JS event loop as a small-step interpreter with
  explicit fuel: `none` means the run did not finish within the given
  fuel, and divergence is `∀ fuel, … = none`;
* a worker `asyncOperation : T → Promise<R>` as a function
  `T → Except Unit R` giving each item's eventual settlement
  (success value or rejection).
-/

set_option autoImplicit false

open List

universe u v

/-! ### Transform combinators: map and filter -/

/-- Embedding of `mapAsyncIterator` (source lines 52-59): a `for await`
loop over the source that yields `mapper item` for every item. -/
def mapAsyncIterator {T : Type u} {R : Type v} (iterator : List T) (mapper : T → R) : List R :=
  match iterator with
  | [] => []
  | item :: rest => mapper item :: mapAsyncIterator rest mapper

/-- Embedding of `filterAsyncIterator` (source lines 40-49): a `for await`
loop over the source that yields exactly the items on which the predicate
returns true, and keeps consuming the source after a discard. -/
def filterAsyncIterator {T : Type u} (iterator : List T) (predicate : T → Bool) : List T :=
  match iterator with
  | [] => []
  | item :: rest =>
    if predicate item then item :: filterAsyncIterator rest predicate
    else filterAsyncIterator rest predicate

/-! ### Merge combinator

`mergeAsyncIterators` (source lines 142-165) first issues one `next()`
against every source (`iterators.map(it => it.next())`), then loops: a
`Promise.race` picks whichever outstanding retrieval settles first (the
schedule `sched` chooses, modulo the number of still-active sources);
a value is yielded and a fresh `next()` issued on that same source, while
a `done` result splices the source out of both arrays.  The run records
an event trace of every retrieval issued and every settlement observed. -/

inductive MEvent where
  | issue (id : Nat)
  | resolveVal (id : Nat)
  | resolveDone (id : Nat)
deriving DecidableEq

/-- The source a retrieval event belongs to. -/
def MEvent.srcId : MEvent → Nat
  | .issue id => id
  | .resolveVal id => id
  | .resolveDone id => id

/-- Fuel sufficient to drain `srcs`: every loop iteration either removes
one value from one source or removes one exhausted source. -/
def mergeFuel {T : Type u} (srcs : List (Nat × List T)) : Nat :=
  (srcs.map (fun p => p.2.length)).sum + srcs.length

/-- The race-and-refill loop of `mergeAsyncIterators`. State `srcs` holds,
per still-active source, its id and the values its pending and future
retrievals will produce. Returns the yielded values and the event trace,
or `none` if `fuel` ran out. -/
def mergeLoop {T : Type u} :
    Nat → List (Nat × List T) → (Nat → Nat) → Nat → Option (List T × List MEvent)
  | 0, srcs, _, _ => if srcs.isEmpty then some ([], []) else none
  | _ + 1, [], _, _ => some ([], [])
  | fuel + 1, p :: ps, sched, step =>
    match ((p :: ps).get? (sched step % (p :: ps).length)).getD (0, []) with
    | (id, []) =>
      (mergeLoop fuel ((p :: ps).eraseIdx (sched step % (p :: ps).length)) sched (step + 1)).map
        (fun r => (r.1, MEvent.resolveDone id :: r.2))
    | (id, v :: rest) =>
      (mergeLoop fuel ((p :: ps).set (sched step % (p :: ps).length) (id, rest)) sched
          (step + 1)).map
        (fun r => (v :: r.1, MEvent.resolveVal id :: MEvent.issue id :: r.2))

/-- Embedding of `mergeAsyncIterators`: tag each source with its index,
issue the up-front retrievals, then run the race loop to completion. -/
def mergeAsyncIterators {T : Type u} (iterators : List (List T)) (sched : Nat → Nat) :
    Option (List T × List MEvent) :=
  (mergeLoop (mergeFuel iterators.enum) iterators.enum sched 0).map
    (fun r => (r.1, iterators.enum.map (fun p => MEvent.issue p.1) ++ r.2))

/-- Per-source retrieval-protocol automaton: state is (outstanding, done).
An `issue` is legal only with no retrieval outstanding and the source not
yet completed; a settlement is legal only with one outstanding. -/
def okFrom : Bool → Bool → List MEvent → Bool
  | _, _, [] => true
  | false, false, MEvent.issue _ :: es => okFrom true false es
  | true, false, MEvent.resolveVal _ :: es => okFrom false false es
  | true, false, MEvent.resolveDone _ :: es => okFrom false true es
  | _, _, _ :: _ => false

/-- The subtrace of events that concern source `id`. -/
def eventsFor (id : Nat) (tr : List MEvent) : List MEvent :=
  tr.filter (fun e => e.srcId == id)

/-! ### Bounded-concurrency mapper: limitConcurrency

`limitConcurrency` (source lines 168-214) keeps a `Set` of in-flight
promises (`inProgress`), an output queue (`results`), and a `completed`
flag.  `startNext` draws the next item from the iterator: when the
iterator is exhausted it sets `completed := inProgress.size === 0`,
otherwise it starts `asyncOperation(value)` and registers a
then/catch callback that removes the promise, pushes the result (or
logs the error), and calls `startNext` again.  The generator body first
runs the synchronous dispatch loop
`while (inProgress.size < concurrency && !completed) startNext()`
and then the drain loop, yielding `results.shift()` when available and
otherwise sleeping 10ms so the event loop can settle promises.

The embedding makes the event loop explicit.  A state carries:
`pending` — settlement outcomes of items not yet drawn from the
iterator (the worker's eventual result per item is fixed up front);
`inProgress` — outcomes of in-flight invocations, insertion-ordered;
`results` — the queue pushed by settlement callbacks; `emitted` — what
the generator has yielded; `errors` — how many failures were logged;
`completed` — the source's flag; and the ghost field `settledOrder`
recording the order in which invocations settled (completion order),
used only to state the emission-order property.  The scheduler `sched`
picks which in-flight promise settles at each turn, and `act` models
consumer timing: whether a queued result is yielded before the next
settlement callback runs. -/

structure LCState (R : Type v) where
  pending : List (Except Unit R)
  inProgress : List (Except Unit R)
  results : List R
  emitted : List R
  settledOrder : List R
  errors : Nat
  completed : Bool

/-- Initial state: the iterator over `items`, nothing started. -/
def initState {T : Type u} {R : Type v} (items : List T)
    (asyncOperation : T → Except Unit R) : LCState R :=
  { pending := items.map asyncOperation, inProgress := [], results := [], emitted := [],
    settledOrder := [], errors := 0, completed := false }

/-- `startNext()`: draw the next item; on iterator exhaustion set
`completed = inProgress.size === 0`, otherwise add the new invocation's
promise to `inProgress`. -/
def startNext {R : Type v} (s : LCState R) : LCState R :=
  match s.pending with
  | [] => { s with completed := s.inProgress.isEmpty }
  | o :: rest => { s with pending := rest, inProgress := s.inProgress ++ [o] }

/-- The settlement callback of one in-flight promise (chosen by index
`i` modulo the number of in-flight promises): `inProgress.delete`,
then `results.push(result)` on success or the error log on failure,
then `startNext()`.  A no-op when nothing is in flight. -/
def settle {R : Type v} (i : Nat) (s : LCState R) : LCState R :=
  match s.inProgress with
  | [] => s
  | _ :: _ =>
    match (s.inProgress.get? (i % s.inProgress.length)).getD (Except.error ()) with
    | Except.ok r =>
      startNext
        { s with
          inProgress := s.inProgress.eraseIdx (i % s.inProgress.length)
          results := s.results ++ [r]
          settledOrder := s.settledOrder ++ [r] }
    | Except.error _ =>
      startNext
        { s with
          inProgress := s.inProgress.eraseIdx (i % s.inProgress.length)
          errors := s.errors + 1 }

/-- One `yield results.shift()` of the drain loop. -/
def yieldOne {R : Type v} (s : LCState R) : LCState R :=
  match s.results with
  | [] => s
  | r :: rs => { s with results := rs, emitted := s.emitted ++ [r] }

/-- The synchronous dispatch loop
`while (inProgress.size < concurrency && !completed) startNext()`.
`none` means the loop was still running when `fuel` ran out; a loop
that never exits satisfies `∀ fuel, initLoop fuel c s = none`. -/
def initLoop {R : Type v} : Nat → Nat → LCState R → Option (LCState R)
  | 0, _, _ => none
  | fuel + 1, concurrency, s =>
    if s.inProgress.length < concurrency ∧ s.completed = false then
      initLoop fuel concurrency (startNext s)
    else some s

/-- The drain loop `while (!completed || results.length > 0)`
interleaved with the event loop: when the queue is nonempty the
generator may yield (it must if no settlement can occur); when the
queue is empty the generator sleeps and a settlement callback runs; if
neither a yield nor a settlement is possible and the loop has not
exited, the generator polls forever (`none`). -/
def drive {R : Type v} : Nat → (Nat → Nat) → (Nat → Bool) → Nat → LCState R → Option (LCState R)
  | 0, _, _, _, _ => none
  | fuel + 1, sched, act, step, s =>
    if s.completed && s.results.isEmpty then some s
    else if !s.results.isEmpty && (s.inProgress.isEmpty || act step) then
      drive fuel sched act (step + 1) (yieldOne s)
    else if !s.inProgress.isEmpty then
      drive fuel sched act (step + 1) (settle (sched step) s)
    else none

/-- Embedding of `limitConcurrency`: run the dispatch loop, then the
drain loop.  `none` means the call never completed within `fuel` event
steps. -/
def limitConcurrency {T : Type u} {R : Type v} (fuel : Nat) (items : List T)
    (asyncOperation : T → Except Unit R) (concurrency : Nat)
    (sched : Nat → Nat) (act : Nat → Bool) : Option (LCState R) :=
  (initLoop fuel concurrency (initState items asyncOperation)).bind (drive fuel sched act 0)

/-- `limitConcurrency` diverges on these arguments: no amount of fuel,
no settlement order and no consumer timing lets the call finish. -/
def lcDiverges {T : Type u} {R : Type v} (items : List T)
    (asyncOperation : T → Except Unit R) (concurrency : Nat) : Prop :=
  ∀ (fuel : Nat) (sched : Nat → Nat) (act : Nat → Bool),
    limitConcurrency fuel items asyncOperation concurrency sched act = none

/-- States visited by the dispatch loop (for stating invariants). -/
def initLoopStates {R : Type v} : Nat → Nat → LCState R → List (LCState R)
  | 0, _, s => [s]
  | fuel + 1, concurrency, s =>
    if s.inProgress.length < concurrency ∧ s.completed = false then
      s :: initLoopStates fuel concurrency (startNext s)
    else [s]

/-- States visited by the drain loop (for stating invariants). -/
def driveStates {R : Type v} :
    Nat → (Nat → Nat) → (Nat → Bool) → Nat → LCState R → List (LCState R)
  | 0, _, _, _, s => [s]
  | fuel + 1, sched, act, step, s =>
    if s.completed && s.results.isEmpty then [s]
    else if !s.results.isEmpty && (s.inProgress.isEmpty || act step) then
      s :: driveStates fuel sched act (step + 1) (yieldOne s)
    else if !s.inProgress.isEmpty then
      s :: driveStates fuel sched act (step + 1) (settle (sched step) s)
    else [s]

/-- All states a run of `limitConcurrency` passes through. -/
def traceLC {T : Type u} {R : Type v} (fuel : Nat) (items : List T)
    (asyncOperation : T → Except Unit R) (concurrency : Nat)
    (sched : Nat → Nat) (act : Nat → Bool) : List (LCState R) :=
  initLoopStates fuel concurrency (initState items asyncOperation) ++
    (match initLoop fuel concurrency (initState items asyncOperation) with
     | none => []
     | some s1 => driveStates fuel sched act 0 s1)

/-- Throughout every run of `limitConcurrency` on these arguments —
any fuel, settlement order and consumer timing — no failure is ever
logged and no value is ever emitted. -/
def lcNeverObserves {T : Type u} {R : Type v} (items : List T)
    (asyncOperation : T → Except Unit R) (concurrency : Nat) : Prop :=
  ∀ (fuel : Nat) (sched : Nat → Nat) (act : Nat → Bool),
    ∀ t ∈ traceLC fuel items asyncOperation concurrency sched act,
      t.errors = 0 ∧ t.emitted = []

/-- The successful outcomes among a list of settlement outcomes. -/
def successesOf {R : Type v} (l : List (Except Unit R)) : List R :=
  l.filterMap Except.toOption

/-- The number of failures among a list of settlement outcomes. -/
def failCount {R : Type v} (l : List (Except Unit R)) : Nat :=
  (l.filter (fun o => o.toOption.isNone)).length

/-- Run invariant of the bounded-concurrency mapper, relative to the
full outcome list `all = items.map asyncOperation`:  the settlement
order is exactly what was emitted followed by what is still queued;
once `completed` is set nothing is pending or in flight; the successes
are conserved across the four places a success can live; and the error
counter plus the failures still to come accounts for every failure. -/
structure LCPre {R : Type v} (all : List (Except Unit R)) (s : LCState R) : Prop where
  settled_eq : s.settledOrder = s.emitted ++ s.results
  completed_empty : s.completed = true → s.pending = [] ∧ s.inProgress = []
  conserve : (↑s.emitted + ↑s.results + ↑(successesOf s.inProgress) + ↑(successesOf s.pending)
      : Multiset R) = ↑(successesOf all)
  errors_eq : s.errors + failCount s.inProgress + failCount s.pending = failCount all

/-- Decreasing measure for the drain loop: every settlement or yield
makes progress. -/
def lcMeasure {R : Type v} (s : LCState R) : Nat :=
  2 * (s.pending.length + s.inProgress.length) + s.results.length

/-! ### Theorems -/
theorem mapAsyncIterator_eq_map {T : Type u} {R : Type v} (S : List T) (f : T → R) :
    mapAsyncIterator S f = S.map f := by
  induction S with
  | nil => rfl
  | cons x xs ih => simp [mapAsyncIterator, ih]

theorem filterAsyncIterator_eq_filter {T : Type u} (S : List T) (p : T → Bool) :
    filterAsyncIterator S p = S.filter p := by
  induction S with
  | nil => rfl
  | cons x xs ih =>
    by_cases h : p x <;> simp [filterAsyncIterator, List.filter_cons, h, ih]

/-- C6: the map combinator applies the mapper elementwise, preserving
order and length; mapping doubling over `[1,2,3]` yields `[2,4,6]`. -/
theorem C6_map_elementwise :
    (∀ {T : Type u} {R : Type v} (S : List T) (f : T → R),
        mapAsyncIterator S f = S.map f ∧
        (mapAsyncIterator S f).length = S.length ∧
        ∀ i : Nat, (mapAsyncIterator S f)[i]? = S[i]?.map f) ∧
    mapAsyncIterator [1, 2, 3] (fun x => x * 2) = [2, 4, 6] := by
  refine ⟨fun S f => ⟨mapAsyncIterator_eq_map S f, ?_, ?_⟩, by decide⟩
  · rw [mapAsyncIterator_eq_map]; exact S.length_map f
  · intro i; rw [mapAsyncIterator_eq_map, List.getElem?_map]

/-- C7: the filter combinator produces exactly the subsequence of the
source satisfying the predicate, preserving relative order (it is a
sublist of the source and equals `List.filter`), and does not stop at a
discarded item: `[0,1,2,3,4]` filtered by evenness yields `[0,2,4]`. -/
theorem C7_filter_subsequence :
    (∀ {T : Type u} (S : List T) (p : T → Bool),
        filterAsyncIterator S p = S.filter p ∧
        List.Sublist (filterAsyncIterator S p) S ∧
        ∀ x ∈ S, p x = true → x ∈ filterAsyncIterator S p) ∧
    filterAsyncIterator [0, 1, 2, 3, 4] (fun x => x % 2 == 0) = [0, 2, 4] := by
  refine ⟨fun S p => ⟨filterAsyncIterator_eq_filter S p, ?_, ?_⟩, by decide⟩
  · rw [filterAsyncIterator_eq_filter]; exact S.filter_sublist
  · intro x hx hp
    rw [filterAsyncIterator_eq_filter]
    exact List.mem_filter.mpr ⟨hx, hp⟩

theorem get?_perm_cons_eraseIdx {α : Type u} :
    ∀ (l : List α) (j : Nat) (o : α), l.get? j = some o → List.Perm l (o :: l.eraseIdx j)
  | [], j, o, h => by simp [List.get?] at h
  | x :: xs, 0, o, h => by
    simp only [List.get?] at h
    cases h
    simp [List.eraseIdx]
  | x :: xs, j + 1, o, h => by
    simp only [List.get?] at h
    have ih := get?_perm_cons_eraseIdx xs j o h
    calc x :: xs ~ x :: o :: xs.eraseIdx j := ih.cons x
      _ ~ o :: x :: xs.eraseIdx j := List.Perm.swap o x _
      _ = o :: (x :: xs).eraseIdx (j + 1) := by simp [List.eraseIdx]

theorem set_perm_cons_eraseIdx {α : Type u} :
    ∀ (l : List α) (j : Nat) (a : α), j < l.length → List.Perm (l.set j a) (a :: l.eraseIdx j)
  | [], j, a, h => by simp at h
  | x :: xs, 0, a, _ => by simp [List.set, List.eraseIdx]
  | x :: xs, j + 1, a, h => by
    have ih := set_perm_cons_eraseIdx xs j a (by simpa using h)
    calc x :: xs.set j a ~ x :: a :: xs.eraseIdx j := ih.cons x
      _ ~ a :: x :: xs.eraseIdx j := List.Perm.swap a x _
      _ = a :: (x :: xs).eraseIdx (j + 1) := by simp [List.eraseIdx]

theorem map_fst_set {α : Type u} {β : Type v} :
    ∀ (l : List (α × β)) (j : Nat) (a : α) (b b' : β),
      l.get? j = some (a, b) → (l.set j (a, b')).map Prod.fst = l.map Prod.fst
  | [], j, _, _, _, h => by simp [List.get?] at h
  | x :: xs, 0, a, b, b', h => by
    simp only [List.get?] at h
    cases h
    simp [List.set]
  | x :: xs, j + 1, a, b, b', h => by
    simp only [List.get?] at h
    simp [List.set, map_fst_set xs j a b b' h]

theorem mergeFuel_congr {T : Type u} {l₁ l₂ : List (Nat × List T)} (h : l₁ ~ l₂) :
    mergeFuel l₁ = mergeFuel l₂ := by
  unfold mergeFuel
  rw [(h.map _).sum_eq, h.length_eq]

theorem eventsFor_append (id : Nat) (a b : List MEvent) :
    eventsFor id (a ++ b) = eventsFor id a ++ eventsFor id b :=
  List.filter_append a b

theorem eventsFor_issues {T : Type u} :
    ∀ (l : List (Nat × List T)) (id : Nat), (l.map Prod.fst).Nodup →
      (id ∈ l.map Prod.fst →
        eventsFor id (l.map (fun p => MEvent.issue p.1)) = [MEvent.issue id]) ∧
      (id ∉ l.map Prod.fst → eventsFor id (l.map (fun p => MEvent.issue p.1)) = [])
  | [], id, _ => ⟨by simp, fun _ => rfl⟩
  | (a, b) :: rest, id, hnd => by
    rw [List.map_cons] at hnd
    have hnd' := (List.nodup_cons.mp hnd).2
    have hanotin := (List.nodup_cons.mp hnd).1
    by_cases hid : id = a
    · subst hid
      have h2 := (eventsFor_issues rest id hnd').2 hanotin
      constructor
      · intro _
        have hstep : eventsFor id (((id, b) :: rest).map (fun p => MEvent.issue p.1))
            = MEvent.issue id :: eventsFor id (rest.map (fun p => MEvent.issue p.1)) := by
          simp [eventsFor, List.filter_cons, MEvent.srcId]
        rw [hstep, h2]
      · intro hmem
        exact absurd (by simp) hmem
    · have hbeq : (a == id) = false := by
        exact beq_eq_false_iff_ne.mpr fun h => hid h.symm
      have ih := eventsFor_issues rest id hnd'
      constructor
      · intro hmem
        have hmem' : id ∈ rest.map Prod.fst := by
          rcases (by simpa using hmem : id = a ∨ id ∈ rest.map Prod.fst) with h | h
          · exact absurd h hid
          · exact h
        simpa [eventsFor, List.filter_cons, MEvent.srcId, hbeq] using ih.1 hmem'
      · intro hmem
        have hmem' : id ∉ rest.map Prod.fst := fun h => hmem (by simp [h])
        simpa [eventsFor, List.filter_cons, MEvent.srcId, hbeq] using ih.2 hmem'

theorem mergeLoop_sound {T : Type u} (sched : Nat → Nat) :
    ∀ (fuel : Nat) (srcs : List (Nat × List T)) (step : Nat),
      mergeFuel srcs ≤ fuel → (srcs.map Prod.fst).Nodup →
      ∃ vs tr, mergeLoop fuel srcs sched step = some (vs, tr) ∧
        vs ~ (srcs.map Prod.snd).flatten ∧
        (∀ p ∈ srcs, List.Sublist p.2 vs) ∧
        (∀ id : Nat,
          (id ∈ srcs.map Prod.fst → okFrom true false (eventsFor id tr) = true) ∧
          (id ∉ srcs.map Prod.fst → eventsFor id tr = [])) := by
  intro fuel
  induction fuel with
  | zero =>
    intro srcs step hfuel _
    have hsrcs : srcs = [] := by
      cases srcs with
      | nil => rfl
      | cons p ps => exfalso; simp [mergeFuel] at hfuel
    subst hsrcs
    exact ⟨[], [], by simp [mergeLoop], by simp, by simp, fun id => ⟨by simp, fun _ => rfl⟩⟩
  | succ fuel ih =>
    intro srcs step hfuel hnodup
    cases srcs with
    | nil => exact ⟨[], [], by simp [mergeLoop], by simp, by simp, fun id => ⟨by simp, fun _ => rfl⟩⟩
    | cons p ps =>
      have hjlt : sched step % (p :: ps).length < (p :: ps).length :=
        Nat.mod_lt _ (by simp)
      obtain ⟨id, l, hq⟩ : ∃ id l, (p :: ps).get? (sched step % (p :: ps).length) = some (id, l) := by
        refine ⟨((p :: ps).get ⟨_, hjlt⟩).1, ((p :: ps).get ⟨_, hjlt⟩).2, ?_⟩
        rw [List.get?_eq_get hjlt]
      have hperm1 : (p :: ps) ~ ((id, l) :: (p :: ps).eraseIdx (sched step % (p :: ps).length)) :=
        get?_perm_cons_eraseIdx _ _ _ hq
      have hidmem : id ∈ (p :: ps).map Prod.fst :=
        List.mem_map_of_mem Prod.fst (List.get?_mem hq)
      have hnodup2 : (id :: ((p :: ps).eraseIdx (sched step % (p :: ps).length)).map Prod.fst).Nodup :=
        (hperm1.map Prod.fst).nodup hnodup
      have hidnotin := (List.nodup_cons.mp hnodup2).1
      have hnodup3 := (List.nodup_cons.mp hnodup2).2
      cases l with
      | nil =>
        have heq : mergeLoop (fuel + 1) (p :: ps) sched step
            = (mergeLoop fuel ((p :: ps).eraseIdx (sched step % (p :: ps).length)) sched
                (step + 1)).map (fun r => (r.1, MEvent.resolveDone id :: r.2)) := by
          simp only [mergeLoop, hq, Option.getD_some]
        have hfuel' : mergeFuel ((p :: ps).eraseIdx (sched step % (p :: ps).length)) ≤ fuel := by
          have hc := mergeFuel_congr hperm1
          simp only [mergeFuel, List.map_cons, List.sum_cons, List.length_cons] at hc hfuel ⊢
          omega
        obtain ⟨vs, tr, hrun, hpermv, hsub, htr⟩ :=
          ih ((p :: ps).eraseIdx (sched step % (p :: ps).length)) (step + 1) hfuel' hnodup3
        refine ⟨vs, MEvent.resolveDone id :: tr, by rw [heq, hrun]; rfl, ?_, ?_, ?_⟩
        · exact hpermv.trans ((hperm1.map Prod.snd).flatten).symm
        · intro pp hpp
          rcases List.mem_cons.mp (hperm1.mem_iff.mp hpp) with h | h
          · cases h; exact List.nil_sublist vs
          · exact hsub pp h
        · intro id'
          by_cases hid : id' = id
          · subst hid
            have htr0 := (htr id').2 hidnotin
            constructor
            · intro _
              have hstep : eventsFor id' (MEvent.resolveDone id' :: tr)
                  = MEvent.resolveDone id' :: eventsFor id' tr := by
                simp [eventsFor, List.filter_cons, MEvent.srcId]
              rw [hstep, htr0]
              rfl
            · intro hmem
              exact absurd hidmem hmem
          · have hbeq : (id == id') = false := beq_eq_false_iff_ne.mpr fun h => hid h.symm
            have hmemiff : id' ∈ (p :: ps).map Prod.fst ↔
                id' ∈ ((p :: ps).eraseIdx (sched step % (p :: ps).length)).map Prod.fst := by
              rw [(hperm1.map Prod.fst).mem_iff]
              simp [hid]
            constructor
            · intro hmem
              simpa [eventsFor, List.filter_cons, MEvent.srcId, hbeq]
                using (htr id').1 (hmemiff.mp hmem)
            · intro hmem
              simpa [eventsFor, List.filter_cons, MEvent.srcId, hbeq]
                using (htr id').2 (fun h => hmem (hmemiff.mpr h))
      | cons v rest =>
        have heq : mergeLoop (fuel + 1) (p :: ps) sched step
            = (mergeLoop fuel ((p :: ps).set (sched step % (p :: ps).length) (id, rest)) sched
                (step + 1)).map
                (fun r => (v :: r.1, MEvent.resolveVal id :: MEvent.issue id :: r.2)) := by
          simp only [mergeLoop, hq, Option.getD_some]
        have hperm2 : ((p :: ps).set (sched step % (p :: ps).length) (id, rest))
            ~ ((id, rest) :: (p :: ps).eraseIdx (sched step % (p :: ps).length)) :=
          set_perm_cons_eraseIdx _ _ _ hjlt
        have hmapfst : ((p :: ps).set (sched step % (p :: ps).length) (id, rest)).map Prod.fst
            = (p :: ps).map Prod.fst :=
          map_fst_set _ _ _ _ _ hq
        have hfuel' : mergeFuel ((p :: ps).set (sched step % (p :: ps).length) (id, rest)) ≤ fuel := by
          have hc1 := mergeFuel_congr hperm1
          have hc2 := mergeFuel_congr hperm2
          simp only [mergeFuel, List.map_cons, List.sum_cons, List.length_cons,
            List.length_eraseIdx] at hc1 hc2 hfuel ⊢
          omega
        obtain ⟨vs, tr, hrun, hpermv, hsub, htr⟩ :=
          ih ((p :: ps).set (sched step % (p :: ps).length) (id, rest)) (step + 1) hfuel'
            (by rw [hmapfst]; exact hnodup)
        have hmemset : (id, rest) ∈ (p :: ps).set (sched step % (p :: ps).length) (id, rest) :=
          hperm2.mem_iff.mpr (List.mem_cons_self _ _)
        refine ⟨v :: vs, MEvent.resolveVal id :: MEvent.issue id :: tr,
          by rw [heq, hrun]; rfl, ?_, ?_, ?_⟩
        · exact ((hpermv.trans ((hperm2.map Prod.snd).flatten)).cons v).trans
            ((hperm1.map Prod.snd).flatten).symm
        · intro pp hpp
          rcases List.mem_cons.mp (hperm1.mem_iff.mp hpp) with h | h
          · cases h
            exact List.Sublist.cons₂ v (hsub _ hmemset)
          · exact List.Sublist.cons v
              (hsub pp (hperm2.mem_iff.mpr (List.mem_cons_of_mem _ h)))
        · intro id'
          by_cases hid : id' = id
          · subst hid
            have hmem2 : id' ∈ ((p :: ps).set (sched step % (p :: ps).length) (id', rest)).map
                Prod.fst := List.mem_map_of_mem Prod.fst hmemset
            constructor
            · intro _
              have h1 := (htr id').1 hmem2
              have hstep : eventsFor id' (MEvent.resolveVal id' :: MEvent.issue id' :: tr)
                  = MEvent.resolveVal id' :: MEvent.issue id' :: eventsFor id' tr := by
                simp [eventsFor, List.filter_cons, MEvent.srcId]
              rw [hstep]
              exact h1
            · intro hmem
              exact absurd hidmem hmem
          · have hbeq : (id == id') = false := beq_eq_false_iff_ne.mpr fun h => hid h.symm
            have hmemiff : id' ∈ (p :: ps).map Prod.fst ↔
                id' ∈ ((p :: ps).set (sched step % (p :: ps).length) (id, rest)).map Prod.fst := by
              rw [hmapfst]
            constructor
            · intro hmem
              simpa [eventsFor, List.filter_cons, MEvent.srcId, hbeq]
                using (htr id').1 (hmemiff.mp hmem)
            · intro hmem
              simpa [eventsFor, List.filter_cons, MEvent.srcId, hbeq]
                using (htr id').2 (fun h => hmem (hmemiff.mpr h))

/-- C8: for finite failure-free sources, `mergeAsyncIterators` yields a
permutation of the concatenation of all sources (multiset-equal), each
source's own list embeds order-preservingly (as a sublist) into the
output, and the merged run completes (the race loop returns rather than
running forever) exactly when every source has completed. -/
theorem C8_merge_interleaving {T : Type u} (sources : List (List T)) (sched : Nat → Nat) :
    ∃ vs tr, mergeAsyncIterators sources sched = some (vs, tr) ∧
      vs ~ sources.flatten ∧
      ∀ (k : Nat) (h : k < sources.length), List.Sublist (sources.get ⟨k, h⟩) vs := by
  obtain ⟨vs, tr, hrun, hperm, hsub, _⟩ :=
    mergeLoop_sound sched (mergeFuel sources.enum) sources.enum 0 le_rfl
      sources.nodup_enum_map_fst
  refine ⟨vs, sources.enum.map (fun p => MEvent.issue p.1) ++ tr, ?_, ?_, ?_⟩
  · simp [mergeAsyncIterators, hrun]
  · have h2 : (sources.enum.map Prod.snd).flatten = sources.flatten := by
      rw [List.enum_map_snd]
    rw [← h2]
    exact hperm
  · intro k h
    have hmem : (k, sources.get ⟨k, h⟩) ∈ sources.enum := by
      rw [List.mem_enum_iff_getElem?]
      simp [List.getElem?_eq_getElem h, List.get_eq_getElem]
    exact hsub _ hmem

/-- Witness for C8 at concrete scenario 3: merging `[1,2]` and `[10]`. -/
theorem C8_merge_interleaving_witness :
    ∃ vs tr, mergeAsyncIterators [[1, 2], [10]] (fun _ => 0) = some (vs, tr) ∧
      vs ~ ([[1, 2], [10]] : List (List Nat)).flatten ∧
      ∀ (k : Nat) (h : k < ([[1, 2], [10]] : List (List Nat)).length),
        List.Sublist (([[1, 2], [10]] : List (List Nat)).get ⟨k, h⟩) vs :=
  C8_merge_interleaving [[1, 2], [10]] (fun _ => 0)

/-- C9: in every merged run, each source's retrieval events form a legal
alternation: a retrieval is only issued when none is outstanding on that
source and the source has not completed, so there is never a second
`next()` while one is unresolved, and no `next()` after `done`. -/
theorem C9_merge_one_outstanding_retrieval {T : Type u} (sources : List (List T))
    (sched : Nat → Nat) :
    ∃ vs tr, mergeAsyncIterators sources sched = some (vs, tr) ∧
      ∀ id : Nat, okFrom false false (eventsFor id tr) = true := by
  obtain ⟨vs, tr, hrun, _, _, htr⟩ :=
    mergeLoop_sound sched (mergeFuel sources.enum) sources.enum 0 le_rfl
      sources.nodup_enum_map_fst
  refine ⟨vs, sources.enum.map (fun p => MEvent.issue p.1) ++ tr, ?_, ?_⟩
  · simp [mergeAsyncIterators, hrun]
  · intro id
    rw [eventsFor_append]
    by_cases hmem : id ∈ sources.enum.map Prod.fst
    · rw [(eventsFor_issues sources.enum id sources.nodup_enum_map_fst).1 hmem]
      exact (htr id).1 hmem
    · rw [(eventsFor_issues sources.enum id sources.nodup_enum_map_fst).2 hmem,
        (htr id).2 hmem]
      rfl

/-- C10: merging zero sources completes immediately: the run yields no
values and its trace contains no retrieval events at all. -/
theorem C10_merge_no_sources (sched : Nat → Nat) :
    mergeAsyncIterators ([] : List (List Nat)) sched = some ([], []) :=
  rfl

theorem yieldOne_inProgress {R : Type v} (s : LCState R) :
    (yieldOne s).inProgress = s.inProgress := by
  unfold yieldOne
  cases s.results <;> rfl

theorem yieldOne_completed {R : Type v} (s : LCState R) :
    (yieldOne s).completed = s.completed := by
  unfold yieldOne
  cases s.results <;> rfl

theorem startNext_inProgress_le {R : Type v} (s : LCState R) :
    (startNext s).inProgress.length ≤ s.inProgress.length + 1 := by
  unfold startNext
  cases s.pending <;> simp

theorem settle_inProgress_le {R : Type v} (i : Nat) (s : LCState R) :
    (settle i s).inProgress.length ≤ s.inProgress.length := by
  obtain ⟨pe, ip, res, em, so, er, co⟩ := s
  cases ip with
  | nil => simp [settle]
  | cons o os =>
    have hlen : (i % (os.length + 1)) < os.length + 1 := Nat.mod_lt _ (Nat.succ_pos _)
    have herase : ((o :: os).eraseIdx (i % (os.length + 1))).length = os.length := by
      simp [List.length_eraseIdx, hlen]
    cases hget : ((o :: os).get? (i % (o :: os).length)).getD (Except.error ()) with
    | ok r =>
      simp only [settle, hget]
      refine le_trans (startNext_inProgress_le _) ?_
      simp [herase]
    | error e =>
      simp only [settle, hget]
      refine le_trans (startNext_inProgress_le _) ?_
      simp [herase]

theorem initLoopStates_bound {R : Type v} :
    ∀ (fuel c : Nat) (s : LCState R), s.inProgress.length ≤ c →
      ∀ t ∈ initLoopStates fuel c s, t.inProgress.length ≤ c
  | 0, c, s, hs, t, ht => by
    simp only [initLoopStates, List.mem_singleton] at ht
    exact ht ▸ hs
  | fuel + 1, c, s, hs, t, ht => by
    by_cases hcond : s.inProgress.length < c ∧ s.completed = false
    · rw [initLoopStates, if_pos hcond] at ht
      rcases List.mem_cons.mp ht with h | h
      · exact h ▸ hs
      · exact initLoopStates_bound fuel c (startNext s)
          (le_trans (startNext_inProgress_le s) hcond.1) t h
    · rw [initLoopStates, if_neg hcond] at ht
      simp only [List.mem_singleton] at ht
      exact ht ▸ hs

theorem initLoop_bound {R : Type v} :
    ∀ (fuel c : Nat) (s s1 : LCState R), s.inProgress.length ≤ c →
      initLoop fuel c s = some s1 → s1.inProgress.length ≤ c
  | 0, c, s, s1, _, h => by simp [initLoop] at h
  | fuel + 1, c, s, s1, hs, h => by
    by_cases hcond : s.inProgress.length < c ∧ s.completed = false
    · rw [initLoop, if_pos hcond] at h
      exact initLoop_bound fuel c (startNext s) s1
        (le_trans (startNext_inProgress_le s) hcond.1) h
    · rw [initLoop, if_neg hcond] at h
      cases h
      exact hs

theorem driveStates_bound {R : Type v} (c : Nat) (sched : Nat → Nat) (act : Nat → Bool) :
    ∀ (fuel step : Nat) (s : LCState R), s.inProgress.length ≤ c →
      ∀ t ∈ driveStates fuel sched act step s, t.inProgress.length ≤ c
  | 0, step, s, hs, t, ht => by
    simp only [driveStates, List.mem_singleton] at ht
    exact ht ▸ hs
  | fuel + 1, step, s, hs, t, ht => by
    rw [driveStates] at ht
    split at ht
    · simp only [List.mem_singleton] at ht
      exact ht ▸ hs
    · split at ht
      · rcases List.mem_cons.mp ht with h | h
        · exact h ▸ hs
        · exact driveStates_bound c sched act fuel (step + 1) (yieldOne s)
            (by rw [yieldOne_inProgress]; exact hs) t h
      · split at ht
        · rcases List.mem_cons.mp ht with h | h
          · exact h ▸ hs
          · exact driveStates_bound c sched act fuel (step + 1) (settle (sched step) s)
              (le_trans (settle_inProgress_le _ s) hs) t h
        · simp only [List.mem_singleton] at ht
          exact ht ▸ hs

/-- C1: with `limit >= 1`, at every instant of every run of
`limitConcurrency` — under every settlement order, consumer timing and
fuel, and whether individual invocations succeed or fail — the number
of started-but-unsettled worker invocations is at most `limit`. -/
theorem C1_limitConcurrency_at_most_limit {T : Type u} {R : Type v} (items : List T)
    (asyncOperation : T → Except Unit R) (concurrency : Nat) (sched : Nat → Nat)
    (act : Nat → Bool) (fuel : Nat) (_hc : 1 ≤ concurrency) :
    ∀ t ∈ traceLC fuel items asyncOperation concurrency sched act,
      t.inProgress.length ≤ concurrency := by
  intro t ht
  have h0 : (initState items asyncOperation).inProgress.length ≤ concurrency := by
    simp [initState]
  rcases List.mem_append.mp ht with h | h
  · exact initLoopStates_bound fuel concurrency _ h0 t h
  · cases hinit : initLoop fuel concurrency (initState items asyncOperation) with
    | none => rw [hinit] at h; simp at h
    | some s1 =>
      rw [hinit] at h
      exact driveStates_bound concurrency sched act fuel 0 s1
        (initLoop_bound fuel concurrency _ s1 h0 hinit) t h

/-- Witness for C1 at concrete scenario 4: four items, limit 2. -/
theorem C1_limitConcurrency_at_most_limit_witness :
    1 ≤ 2 ∧
      ∀ t ∈ traceLC 12 [1, 2, 3, 4] (fun x => Except.ok x) 2 (fun _ => 0) (fun _ => true),
        t.inProgress.length ≤ 2 :=
  ⟨by decide,
    C1_limitConcurrency_at_most_limit [1, 2, 3, 4] (fun x => Except.ok x) 2 (fun _ => 0)
      (fun _ => true) 12 (by decide)⟩

theorem startNext_fix_of_stuck {R : Type v} (s : LCState R) (hp : s.pending = [])
    (hip : s.inProgress.isEmpty = false) (hc : s.completed = false) : startNext s = s := by
  obtain ⟨pe, ip, res, em, so, er, co⟩ := s
  simp only at hp hip hc
  subst hp hc
  simp [startNext, hip]

theorem initLoop_none_of_fix {R : Type v} (c : Nat) (s : LCState R)
    (hfix : startNext s = s) (hguard : s.inProgress.length < c ∧ s.completed = false) :
    ∀ fuel, initLoop fuel c s = none := by
  intro fuel
  induction fuel with
  | zero => rfl
  | succ fuel ih =>
    rw [initLoop, if_pos hguard, hfix]
    exact ih

/-- C2: the claimed completion behaviour fails: with `items = [1]` and
`limit = 2` (limit greater than the number of items, items nonempty) the
synchronous dispatch loop spins forever — the iterator keeps answering
`done`, `completed` stays false because one invocation is in flight, and
no settlement callback can ever run — so the sequence never completes
under any settlement order, consumer timing or fuel. -/
theorem C2_limitConcurrency_diverges_when_limit_exceeds_items :
    lcDiverges [1] (fun x => Except.ok x) 2 := by
  intro fuel sched act
  unfold limitConcurrency
  have hstuck : ∀ f : Nat,
      initLoop f 2 (LCState.mk [] [Except.ok 1] [] [] [] 0 false) = none :=
    initLoop_none_of_fix 2 _ rfl (by constructor <;> decide)
  have h : initLoop fuel 2 (initState [1] (fun x => Except.ok x)) = none := by
    cases fuel with
    | zero => rfl
    | succ f =>
      have hone : initLoop (f + 1) 2 (initState [1] (fun x => Except.ok x))
          = initLoop f 2 (LCState.mk [] [Except.ok 1] [] [] [] 0 false) := rfl
      rw [hone]
      exact hstuck f
  rw [h]
  rfl

/-- C3: the bounded mapper does not validate `limit < 1` and does not
fail fast: with `limit = 0` nothing is ever started (`inProgress.size <
0` is never true), `completed` stays false, and the drain loop polls
forever — the call hangs instead of raising an error at call time. -/
theorem C3_limitConcurrency_no_fail_fast_on_zero_limit :
    lcDiverges [1] (fun x => Except.ok x) 0 := by
  intro fuel sched act
  unfold limitConcurrency
  cases fuel with
  | zero => rfl
  | succ f =>
    have h1 : initLoop (f + 1) 0 (initState [1] (fun x => Except.ok x))
        = some (initState [1] (fun x => Except.ok x)) := rfl
    rw [h1]
    show drive (f + 1) sched act 0 (initState [1] (fun x => Except.ok x)) = none
    rfl

/-- Counterexample to C4 as stated: with two items whose workers both
succeed (outcomes 5 and 6) and `limit = 3 ≥ 1`, the run diverges in the
dispatch loop, so nothing is ever emitted although the multiset of
successful outcomes is nonempty. -/
theorem C4_counterexample_diverges :
    lcDiverges [5, 6] (fun x => Except.ok x) 3 := by
  intro fuel sched act
  unfold limitConcurrency
  have hstuck : ∀ f : Nat,
      initLoop f 3 (LCState.mk [] [Except.ok 5, Except.ok 6] [] [] [] 0 false) = none :=
    initLoop_none_of_fix 3 _ rfl (by constructor <;> decide)
  have h : initLoop fuel 3 (initState [5, 6] (fun x => Except.ok x)) = none := by
    cases fuel with
    | zero => rfl
    | succ f =>
      cases f with
      | zero => rfl
      | succ g =>
        cases g with
        | zero => rfl
        | succ e =>
          have htwo : initLoop (e + 3) 3 (initState [5, 6] (fun x => Except.ok x))
              = initLoop (e + 1) 3 (LCState.mk [] [Except.ok 5, Except.ok 6] [] [] [] 0 false) :=
            rfl
          rw [htwo]
          exact hstuck (e + 1)
  rw [h]
  rfl

theorem initState_pre {T : Type u} {R : Type v} (items : List T)
    (asyncOperation : T → Except Unit R) :
    LCPre (items.map asyncOperation) (initState items asyncOperation) := by
  refine ⟨rfl, ?_, ?_, ?_⟩
  · intro h
    exact absurd h (by simp [initState])
  · simp [initState, successesOf]
  · simp [initState, failCount]

theorem startNext_pre {R : Type v} {all : List (Except Unit R)} {s : LCState R}
    (h : LCPre all s) : LCPre all (startNext s) := by
  obtain ⟨pe, ip, res, em, so, er, co⟩ := s
  obtain ⟨h1, h2, h3, h4⟩ := h
  simp only at h1 h2 h3 h4
  cases pe with
  | nil =>
    refine ⟨h1, ?_, h3, h4⟩
    intro hc
    simp only [startNext] at hc ⊢
    exact ⟨by simp, List.isEmpty_iff.mp hc⟩
  | cons o rest =>
    refine ⟨h1, ?_, ?_, ?_⟩
    · intro hc
      simp only [startNext] at hc
      exact absurd (h2 hc).1 (by simp)
    · show (↑em + ↑res + ↑(successesOf (ip ++ [o])) + ↑(successesOf rest) : Multiset R) = _
      rw [← h3]
      cases o with
      | ok r =>
        simp only [successesOf, List.filterMap_append, List.filterMap_cons, Except.toOption]
        simp only [← Multiset.coe_add, ← Multiset.cons_coe, ← Multiset.singleton_add]
        abel
      | error e =>
        simp only [successesOf, List.filterMap_append, List.filterMap_cons, Except.toOption]
        simp
    · show er + failCount (ip ++ [o]) + failCount rest = _
      rw [← h4]
      cases o with
      | ok r =>
        simp only [failCount, List.filter_append, List.filter_cons, List.length_append,
          Except.toOption]
        simp
      | error e =>
        simp only [failCount, List.filter_append, List.filter_cons, List.length_append,
          Except.toOption]
        simp
        omega

theorem yieldOne_pre {R : Type v} {all : List (Except Unit R)} {s : LCState R}
    (h : LCPre all s) : LCPre all (yieldOne s) := by
  obtain ⟨pe, ip, res, em, so, er, co⟩ := s
  obtain ⟨h1, h2, h3, h4⟩ := h
  simp only at h1 h2 h3 h4
  cases res with
  | nil => exact ⟨h1, h2, h3, h4⟩
  | cons r rs =>
    refine ⟨?_, h2, ?_, h4⟩
    · simp only [yieldOne]
      rw [h1, List.append_assoc]
      rfl
    · dsimp only [yieldOne]
      rw [← h3]
      simp only [← Multiset.coe_add, ← Multiset.cons_coe, ← Multiset.singleton_add]
      abel

theorem startNext_progress {R : Type v} (s : LCState R) :
    (startNext s).completed = false → (startNext s).inProgress ≠ [] := by
  obtain ⟨pe, ip, res, em, so, er, co⟩ := s
  cases pe with
  | nil =>
    intro hc hnil
    simp only [startNext] at hc hnil
    rw [hnil] at hc
    simp at hc
  | cons o rest =>
    intro _
    simp [startNext]

theorem settle_pre {R : Type v} {all : List (Except Unit R)} (i : Nat) {s : LCState R}
    (h : LCPre all s) : LCPre all (settle i s) := by
  obtain ⟨pe, ip, res, em, so, er, co⟩ := s
  cases ip with
  | nil => exact h
  | cons o os =>
    obtain ⟨h1, h2, h3, h4⟩ := h
    simp only at h1 h2 h3 h4
    have hlen : (i % (o :: os).length) < (o :: os).length := Nat.mod_lt _ (by simp)
    obtain ⟨q, hq⟩ : ∃ q, (o :: os).get? (i % (o :: os).length) = some q :=
      ⟨_, List.get?_eq_get hlen⟩
    have hperm : (o :: os) ~ (q :: (o :: os).eraseIdx (i % (o :: os).length)) :=
      get?_perm_cons_eraseIdx _ _ _ hq
    have hsperm : successesOf (o :: os)
        ~ successesOf (q :: (o :: os).eraseIdx (i % (o :: os).length)) :=
      hperm.filterMap _
    have hfail : failCount (o :: os)
        = failCount (q :: (o :: os).eraseIdx (i % (o :: os).length)) :=
      (hperm.filter _).length_eq
    cases q with
    | ok r =>
      have hgd : ((o :: os).get? (i % (o :: os).length)).getD (Except.error ())
          = Except.ok r := by rw [hq]; rfl
      simp only [settle, hgd]
      apply startNext_pre
      refine ⟨?_, ?_, ?_, ?_⟩
      · simp only
        rw [h1, List.append_assoc]
      · intro hc
        exact absurd (h2 hc).2 (by simp)
      · dsimp only
        rw [← h3]
        have hco : (↑(successesOf (o :: os)) : Multiset R)
            = ↑(successesOf (Except.ok r :: (o :: os).eraseIdx (i % (o :: os).length))) :=
          Multiset.coe_eq_coe.mpr hsperm
        rw [hco]
        simp only [successesOf, List.filterMap_cons, Except.toOption]
        simp only [← Multiset.coe_add, ← Multiset.cons_coe, ← Multiset.singleton_add]
        abel
      · dsimp only
        rw [← h4, hfail]
        simp only [failCount, List.filter_cons, Except.toOption]
        simp
    | error e =>
      have hgd : ((o :: os).get? (i % (o :: os).length)).getD (Except.error ())
          = Except.error e := by rw [hq]; rfl
      simp only [settle, hgd]
      apply startNext_pre
      refine ⟨h1, ?_, ?_, ?_⟩
      · intro hc
        exact absurd (h2 hc).2 (by simp)
      · dsimp only
        rw [← h3]
        have hco : (↑(successesOf (o :: os)) : Multiset R)
            = ↑(successesOf (Except.error e :: (o :: os).eraseIdx (i % (o :: os).length))) :=
          Multiset.coe_eq_coe.mpr hsperm
        rw [hco]
        simp only [successesOf, List.filterMap_cons, Except.toOption]
      · dsimp only
        rw [← h4, hfail]
        simp only [failCount, List.filter_cons, Except.toOption]
        simp
        omega

theorem settle_progress {R : Type v} (i : Nat) (s : LCState R) (hip : s.inProgress ≠ []) :
    (settle i s).completed = false → (settle i s).inProgress ≠ [] := by
  obtain ⟨pe, ip, res, em, so, er, co⟩ := s
  cases ip with
  | nil => simp at hip
  | cons o os =>
    cases hget : ((o :: os).get? (i % (o :: os).length)).getD (Except.error ()) with
    | ok r =>
      simp only [settle, hget]
      exact startNext_progress _
    | error e =>
      simp only [settle, hget]
      exact startNext_progress _

theorem lcMeasure_startNext_le {R : Type v} (s : LCState R) :
    lcMeasure (startNext s) ≤ lcMeasure s := by
  obtain ⟨pe, ip, res, em, so, er, co⟩ := s
  cases pe with
  | nil => simp [startNext, lcMeasure]
  | cons o rest => simp [startNext, lcMeasure]; omega

theorem lcMeasure_yieldOne {R : Type v} (s : LCState R) (h : s.results ≠ []) :
    lcMeasure (yieldOne s) < lcMeasure s := by
  obtain ⟨pe, ip, res, em, so, er, co⟩ := s
  cases res with
  | nil => simp at h
  | cons r rs => simp [yieldOne, lcMeasure]

theorem lcMeasure_settle {R : Type v} (i : Nat) (s : LCState R) (hip : s.inProgress ≠ []) :
    lcMeasure (settle i s) < lcMeasure s := by
  obtain ⟨pe, ip, res, em, so, er, co⟩ := s
  cases ip with
  | nil => simp at hip
  | cons o os =>
    have hlen : (i % (os.length + 1)) < os.length + 1 := Nat.mod_lt _ (Nat.succ_pos _)
    have herase : ((o :: os).eraseIdx (i % (os.length + 1))).length = os.length := by
      simp [List.length_eraseIdx, hlen]
    cases hget : ((o :: os).get? (i % (o :: os).length)).getD (Except.error ()) with
    | ok r =>
      simp only [settle, hget]
      refine lt_of_le_of_lt (lcMeasure_startNext_le _) ?_
      simp [lcMeasure, herase]
      omega
    | error e =>
      simp only [settle, hget]
      refine lt_of_le_of_lt (lcMeasure_startNext_le _) ?_
      simp [lcMeasure, herase]

theorem drive_completes {R : Type v} (all : List (Except Unit R)) (sched : Nat → Nat)
    (act : Nat → Bool) :
    ∀ (fuel step : Nat) (s : LCState R),
      LCPre all s → (s.completed = false → s.inProgress ≠ []) → lcMeasure s < fuel →
      ∃ s', drive fuel sched act step s = some s' ∧ LCPre all s' ∧
        s'.completed = true ∧ s'.results = [] := by
  intro fuel
  induction fuel with
  | zero =>
    intro step s _ _ hm
    omega
  | succ fuel ih =>
    intro step s hpre hprog hm
    by_cases hdone : (s.completed && s.results.isEmpty) = true
    · refine ⟨s, ?_, hpre, ?_, ?_⟩
      · rw [drive, if_pos hdone]
      · exact ((Bool.and_eq_true _ _).mp hdone).1
      · exact List.isEmpty_iff.mp ((Bool.and_eq_true _ _).mp hdone).2
    · by_cases hyld : (!s.results.isEmpty && (s.inProgress.isEmpty || act step)) = true
      · have hrne : s.results ≠ [] := by
          intro hnil
          rw [Bool.and_eq_true] at hyld
          rw [hnil] at hyld
          simp at hyld
        obtain ⟨s', hrun, hp', hc', hr'⟩ := ih (step + 1) (yieldOne s) (yieldOne_pre hpre)
          (by rw [yieldOne_completed, yieldOne_inProgress]; exact hprog)
          (lt_of_lt_of_le (lcMeasure_yieldOne s hrne) (Nat.lt_succ_iff.mp hm))
        refine ⟨s', ?_, hp', hc', hr'⟩
        rw [drive, if_neg hdone, if_pos hyld]
        exact hrun
      · have hipne : s.inProgress ≠ [] := by
          intro hnil
          by_cases hres : s.results.isEmpty = true
          · have hc : s.completed = false := by
              cases hco : s.completed
              · rfl
              · exact absurd (by simp [hco, hres] : (s.completed && s.results.isEmpty) = true) hdone
            exact (hprog hc) hnil
          · apply hyld
            rw [Bool.and_eq_true]
            constructor
            · simp only [Bool.not_eq_true'] at hres ⊢
              simp [hres]
            · rw [hnil]
              simp
        obtain ⟨s', hrun, hp', hc', hr'⟩ := ih (step + 1) (settle (sched step) s)
          (settle_pre _ hpre) (settle_progress _ s hipne)
          (lt_of_lt_of_le (lcMeasure_settle _ s hipne) (Nat.lt_succ_iff.mp hm))
        refine ⟨s', ?_, hp', hc', hr'⟩
        rw [drive, if_neg hdone, if_neg hyld, if_pos (by simp [hipne])]
        exact hrun

theorem initLoop_pre {R : Type v} {all : List (Except Unit R)} :
    ∀ (fuel c : Nat) (s s1 : LCState R), LCPre all s → initLoop fuel c s = some s1 →
      LCPre all s1
  | 0, c, s, s1, _, h => by simp [initLoop] at h
  | fuel + 1, c, s, s1, hpre, h => by
    by_cases hcond : s.inProgress.length < c ∧ s.completed = false
    · rw [initLoop, if_pos hcond] at h
      exact initLoop_pre fuel c (startNext s) s1 (startNext_pre hpre) h
    · rw [initLoop, if_neg hcond] at h
      cases h
      exact hpre

theorem initLoop_exit {R : Type v} :
    ∀ (fuel c : Nat) (s s1 : LCState R), initLoop fuel c s = some s1 →
      c ≤ s1.inProgress.length ∨ s1.completed = true
  | 0, c, s, s1, h => by simp [initLoop] at h
  | fuel + 1, c, s, s1, h => by
    by_cases hcond : s.inProgress.length < c ∧ s.completed = false
    · rw [initLoop, if_pos hcond] at h
      exact initLoop_exit fuel c (startNext s) s1 h
    · rw [initLoop, if_neg hcond] at h
      cases h
      rcases Decidable.not_and_iff_or_not.mp hcond with h | h
      · exact Or.inl (Nat.le_of_not_lt h)
      · exact Or.inr (by simpa using h)

theorem startNext_sums {R : Type v} (s : LCState R) :
    (startNext s).pending.length + (startNext s).inProgress.length
        = s.pending.length + s.inProgress.length ∧
      (startNext s).results = s.results := by
  obtain ⟨pe, ip, res, em, so, er, co⟩ := s
  cases pe with
  | nil => exact ⟨rfl, rfl⟩
  | cons o rest => refine ⟨?_, rfl⟩; simp [startNext]; omega

theorem initLoop_sums {R : Type v} :
    ∀ (fuel c : Nat) (s s1 : LCState R), initLoop fuel c s = some s1 →
      s1.pending.length + s1.inProgress.length = s.pending.length + s.inProgress.length ∧
        s1.results = s.results
  | 0, c, s, s1, h => by simp [initLoop] at h
  | fuel + 1, c, s, s1, h => by
    by_cases hcond : s.inProgress.length < c ∧ s.completed = false
    · rw [initLoop, if_pos hcond] at h
      have ih := initLoop_sums fuel c (startNext s) s1 h
      have hsn := startNext_sums s
      exact ⟨by rw [ih.1, hsn.1], by rw [ih.2, hsn.2]⟩
    · rw [initLoop, if_neg hcond] at h
      cases h
      exact ⟨rfl, rfl⟩

theorem initLoop_completes {R : Type v} :
    ∀ (fuel c : Nat) (s : LCState R),
      s.completed = false → s.inProgress.length ≤ c →
      c ≤ s.inProgress.length + s.pending.length →
      s.pending.length + 1 ≤ fuel →
      ∃ s1, initLoop fuel c s = some s1
  | 0, c, s, _, _, _, hf => by omega
  | fuel + 1, c, s, hco, hle, hcn, hf => by
    by_cases hlt : s.inProgress.length < c
    · rw [initLoop, if_pos ⟨hlt, hco⟩]
      obtain ⟨pe, ip, res, em, so, er, co⟩ := s
      simp only at hco hlt hcn hf
      cases pe with
      | nil => simp at hcn; omega
      | cons o rest =>
        apply initLoop_completes fuel c (startNext ⟨o :: rest, ip, res, em, so, er, co⟩)
        · simp [startNext, hco]
        · simp [startNext]
          omega
        · simp [startNext] at hcn ⊢
          omega
        · simp [startNext] at hf ⊢
          omega
    · rw [initLoop, if_neg (fun hand => hlt hand.1)]
      exact ⟨s, rfl⟩

theorem initLoop_empty {R : Type v} (c fuel : Nat) (hc : 1 ≤ c) :
    initLoop (fuel + 2) c (LCState.mk [] [] [] [] [] 0 false : LCState R)
      = some (LCState.mk [] [] [] [] [] 0 true) := by
  rw [initLoop]
  dsimp only [List.length_nil]
  rw [if_pos (⟨hc, rfl⟩ : (0 : Nat) < c ∧ false = false)]
  show initLoop (fuel + 1) c (LCState.mk [] [] [] [] [] 0 true : LCState R) = _
  rw [initLoop]
  dsimp only
  rw [if_neg (by simp)]

theorem limitConcurrency_completes {T : Type u} {R : Type v} (items : List T)
    (asyncOperation : T → Except Unit R) (concurrency : Nat) (sched : Nat → Nat)
    (act : Nat → Bool) (hc : 1 ≤ concurrency)
    (hn : concurrency ≤ items.length ∨ items = []) :
    ∃ s', limitConcurrency (2 * items.length + 2) items asyncOperation concurrency sched act
        = some s' ∧ LCPre (items.map asyncOperation) s' ∧ s'.completed = true ∧
      s'.results = [] ∧ s'.pending = [] ∧ s'.inProgress = [] := by
  rcases hn with hn | hn
  · have hpre0 := initState_pre items asyncOperation
    obtain ⟨s1, hinit⟩ := initLoop_completes (2 * items.length + 2) concurrency
      (initState items asyncOperation) rfl (by simp [initState])
      (by simp [initState]; omega) (by simp [initState]; omega)
    have hpre1 := initLoop_pre _ _ _ _ hpre0 hinit
    have hprog1 : s1.completed = false → s1.inProgress ≠ [] := by
      intro hco hnil
      rcases initLoop_exit _ _ _ _ hinit with hx | hx
      · rw [hnil] at hx
        simp at hx
        omega
      · rw [hx] at hco
        exact absurd hco (by decide)
    have hsums := initLoop_sums _ _ _ _ hinit
    have hmeas : lcMeasure s1 < 2 * items.length + 2 := by
      have h1 := hsums.1
      have h2 := hsums.2
      simp [initState] at h1 h2
      unfold lcMeasure
      rw [h2]
      simp
      omega
    obtain ⟨s', hdrive, hpre', hco', hres'⟩ :=
      drive_completes (items.map asyncOperation) sched act _ 0 s1 hpre1 hprog1 hmeas
    obtain ⟨hp', hi'⟩ := hpre'.completed_empty hco'
    refine ⟨s', ?_, hpre', hco', hres', hp', hi'⟩
    unfold limitConcurrency
    rw [hinit]
    exact hdrive
  · subst hn
    refine ⟨LCState.mk [] [] [] [] [] 0 true, ?_, ?_, rfl, rfl, rfl, rfl⟩
    · show limitConcurrency 2 [] asyncOperation concurrency sched act = _
      unfold limitConcurrency
      have h1 : initLoop 2 concurrency (initState ([] : List T) asyncOperation)
          = some (LCState.mk [] [] [] [] [] 0 true) := initLoop_empty concurrency 0 hc
      rw [h1]
      rfl
    · refine ⟨rfl, fun _ => ⟨rfl, rfl⟩, ?_, ?_⟩
      · simp [successesOf]
      · simp [failCount]

/-- C4 amended: restricted to the runs whose dispatch loop terminates —
`1 ≤ limit ≤ |items|`, or `items` empty — the run completes, the
multiset of emitted values equals the multiset of successful worker
outcomes, and the emission sequence is exactly the settlement sequence
(completion order, not submission order).  The restriction is forced by
the dispatch-loop hang that occurs whenever `limit` exceeds the number
of items of a nonempty input. -/
theorem C4_limitConcurrency_completion_order {T : Type u} {R : Type v} (items : List T)
    (asyncOperation : T → Except Unit R) (concurrency : Nat) (sched : Nat → Nat)
    (act : Nat → Bool) (hc : 1 ≤ concurrency)
    (hn : concurrency ≤ items.length ∨ items = []) :
    ∃ s', limitConcurrency (2 * items.length + 2) items asyncOperation concurrency sched act
        = some s' ∧
      s'.completed = true ∧
      s'.emitted = s'.settledOrder ∧
      (↑s'.emitted : Multiset R) = ↑(successesOf (items.map asyncOperation)) := by
  obtain ⟨s', hrun, hpre', hco', hres', hp', hi'⟩ :=
    limitConcurrency_completes items asyncOperation concurrency sched act hc hn
  refine ⟨s', hrun, hco', ?_, ?_⟩
  · have h := hpre'.settled_eq
    rw [hres'] at h
    simpa using h.symm
  · have h := hpre'.conserve
    rw [hres', hp', hi'] at h
    simpa [successesOf] using h

/-- Witness for C4 (amended) at concrete scenario 4. -/
theorem C4_limitConcurrency_completion_order_witness :
    ∃ s', limitConcurrency (2 * ([1, 2, 3, 4] : List Nat).length + 2) [1, 2, 3, 4]
        (fun x => Except.ok x) 2 (fun _ => 0) (fun _ => true) = some s' ∧
      s'.completed = true ∧
      s'.emitted = s'.settledOrder ∧
      (↑s'.emitted : Multiset Nat)
        = ↑(successesOf (([1, 2, 3, 4] : List Nat).map (fun x => Except.ok x))) :=
  C4_limitConcurrency_completion_order [1, 2, 3, 4] (fun x => Except.ok x) 2 (fun _ => 0)
    (fun _ => true) (by decide) (Or.inl (by decide))

/-- C5 amended: restricted to runs whose dispatch loop terminates —
`1 ≤ limit ≤ |items|`, or `items` empty — a failing worker invocation
does not halt the run: every such run still completes with all
successful results emitted and every failure counted (logged)
separately, whatever mix of failures the workers produce; and at any
state of any run, the settlement callback of a failing invocation
leaves the queue and the emitted output untouched, increments the
error count by exactly one, and — when items are still pending —
immediately refills the freed slot, starting the next pending item.
The restriction on the run-level part is forced by the dispatch-loop
hang: when `limit` exceeds the number of items of a nonempty input no
settlement callback ever runs, so a failure is never processed at all. -/
theorem C5_limitConcurrency_failure_isolation {T : Type u} {R : Type v} (items : List T)
    (asyncOperation : T → Except Unit R) (concurrency : Nat) (sched : Nat → Nat)
    (act : Nat → Bool) (hc : 1 ≤ concurrency)
    (hn : concurrency ≤ items.length ∨ items = []) :
    (∃ s', limitConcurrency (2 * items.length + 2) items asyncOperation concurrency sched act
        = some s' ∧ s'.completed = true ∧
        (↑s'.emitted : Multiset R) = ↑(successesOf (items.map asyncOperation)) ∧
        s'.errors = failCount (items.map asyncOperation)) ∧
    (∀ (s : LCState R) (i : Nat), s.inProgress ≠ [] →
        (s.inProgress.get? (i % s.inProgress.length)).getD (Except.error ())
          = Except.error () →
        (settle i s).results = s.results ∧
        (settle i s).emitted = s.emitted ∧
        (settle i s).errors = s.errors + 1 ∧
        (s.pending ≠ [] → (settle i s).inProgress.length = s.inProgress.length ∧
          (settle i s).pending.length + 1 = s.pending.length)) := by
  constructor
  · obtain ⟨s', hrun, hpre', hco', hres', hp', hi'⟩ :=
      limitConcurrency_completes items asyncOperation concurrency sched act hc hn
    refine ⟨s', hrun, hco', ?_, ?_⟩
    · have h := hpre'.conserve
      rw [hres', hp', hi'] at h
      simpa [successesOf] using h
    · have h := hpre'.errors_eq
      rw [hp', hi'] at h
      simpa [failCount] using h
  · intro s i hip hgd
    obtain ⟨pe, ip, res, em, so, er, co⟩ := s
    cases ip with
    | nil => exact absurd rfl hip
    | cons o os =>
      simp only at hgd
      simp only [settle, hgd]
      have hlen : (i % (os.length + 1)) < os.length + 1 := Nat.mod_lt _ (Nat.succ_pos _)
      have herase : ((o :: os).eraseIdx (i % (os.length + 1))).length = os.length := by
        simp [List.length_eraseIdx, hlen]
      cases pe with
      | nil =>
        refine ⟨rfl, rfl, rfl, ?_⟩
        intro hpe
        exact absurd rfl hpe
      | cons o2 rest =>
        refine ⟨rfl, rfl, rfl, fun _ => ⟨?_, ?_⟩⟩
        · simp [startNext, herase]
        · simp [startNext]

/-- Witness for C5 at concrete scenario 5: three items, limit 3, the
worker failing on item 2. -/
theorem C5_limitConcurrency_failure_isolation_witness :
    (∃ s', limitConcurrency (2 * ([1, 2, 3] : List Nat).length + 2) [1, 2, 3]
        (fun x => if x = 2 then Except.error () else Except.ok x) 3 (fun _ => 0)
        (fun _ => true) = some s' ∧ s'.completed = true ∧
        (↑s'.emitted : Multiset Nat)
          = ↑(successesOf (([1, 2, 3] : List Nat).map
              (fun x => if x = 2 then Except.error () else Except.ok x))) ∧
        s'.errors = failCount (([1, 2, 3] : List Nat).map
          (fun x => if x = 2 then Except.error () else Except.ok x))) ∧
    (∀ (s : LCState Nat) (i : Nat), s.inProgress ≠ [] →
        (s.inProgress.get? (i % s.inProgress.length)).getD (Except.error ())
          = Except.error () →
        (settle i s).results = s.results ∧
        (settle i s).emitted = s.emitted ∧
        (settle i s).errors = s.errors + 1 ∧
        (s.pending ≠ [] → (settle i s).inProgress.length = s.inProgress.length ∧
          (settle i s).pending.length + 1 = s.pending.length)) :=
  C5_limitConcurrency_failure_isolation [1, 2, 3]
    (fun x => if x = 2 then Except.error () else Except.ok x) 3 (fun _ => 0) (fun _ => true)
    (by decide) (Or.inl (by decide))


/-- Witness for C7 at concrete scenario 2, with the kept-element clause
instantiated at element 0. -/
theorem C7_filter_subsequence_witness :
    filterAsyncIterator [0, 1, 2, 3, 4] (fun x => x % 2 == 0)
        = List.filter (fun x => x % 2 == 0) [0, 1, 2, 3, 4] ∧
      (0 : Nat) ∈ ([0, 1, 2, 3, 4] : List Nat) ∧
      ((fun x : Nat => x % 2 == 0) 0) = true ∧
      (0 : Nat) ∈ filterAsyncIterator [0, 1, 2, 3, 4] (fun x => x % 2 == 0) :=
  ⟨(C7_filter_subsequence.1 [0, 1, 2, 3, 4] (fun x => x % 2 == 0)).1, by decide, by decide,
    (C7_filter_subsequence.1 [0, 1, 2, 3, 4] (fun x => x % 2 == 0)).2.2 0 (by decide) (by decide)⟩

theorem startNext_errors_emitted {R : Type v} (s : LCState R) :
    (startNext s).errors = s.errors ∧ (startNext s).emitted = s.emitted := by
  obtain ⟨pe, ip, res, em, so, er, co⟩ := s
  cases pe with
  | nil => exact ⟨rfl, rfl⟩
  | cons o rest => exact ⟨rfl, rfl⟩

theorem initLoopStates_errors_emitted {R : Type v} :
    ∀ (fuel c : Nat) (s : LCState R), ∀ t ∈ initLoopStates fuel c s,
      t.errors = s.errors ∧ t.emitted = s.emitted
  | 0, c, s, t, ht => by
    simp only [initLoopStates, List.mem_singleton] at ht
    exact ht ▸ ⟨rfl, rfl⟩
  | fuel + 1, c, s, t, ht => by
    by_cases hcond : s.inProgress.length < c ∧ s.completed = false
    · rw [initLoopStates, if_pos hcond] at ht
      rcases List.mem_cons.mp ht with h | h
      · exact h ▸ ⟨rfl, rfl⟩
      · have ih := initLoopStates_errors_emitted fuel c (startNext s) t h
        have hsn := startNext_errors_emitted s
        exact ⟨ih.1.trans hsn.1, ih.2.trans hsn.2⟩
    · rw [initLoopStates, if_neg hcond] at ht
      simp only [List.mem_singleton] at ht
      exact ht ▸ ⟨rfl, rfl⟩

/-- Counterexample to C5 as stated: with `items = [1, 2]`, a worker
that rejects on item 1 and succeeds on item 2, and `limit = 3 ≥ 1`
(limit greater than the number of items), the dispatch loop spins
forever, so the rejected invocation's catch callback never runs:
throughout every run, under every settlement order, consumer timing
and fuel, the failure is never logged (`errors` stays 0), the slot is
never freed to start anything, the other item's result is never
emitted (`emitted` stays `[]`), and the call never completes. -/
theorem C5_counterexample_failure_never_processed :
    lcDiverges [1, 2] (fun x => if x = 1 then Except.error () else Except.ok x) 3 ∧
      lcNeverObserves [1, 2] (fun x => if x = 1 then Except.error () else Except.ok x) 3 := by
  have hstuck : ∀ f : Nat,
      initLoop f 3 (LCState.mk [] [Except.error (), Except.ok 2] [] [] [] 0 false) = none :=
    initLoop_none_of_fix 3 _ rfl (by constructor <;> decide)
  have hnone : ∀ fuel : Nat,
      initLoop fuel 3
          (initState [1, 2] (fun x => if x = 1 then Except.error () else Except.ok x))
        = none := by
    intro fuel
    cases fuel with
    | zero => rfl
    | succ f =>
      cases f with
      | zero => rfl
      | succ g =>
        cases g with
        | zero => rfl
        | succ e =>
          have htwo : initLoop (e + 3) 3
              (initState [1, 2] (fun x => if x = 1 then Except.error () else Except.ok x))
                = initLoop (e + 1) 3
                  (LCState.mk [] [Except.error (), Except.ok 2] [] [] [] 0 false) := rfl
          rw [htwo]
          exact hstuck (e + 1)
  constructor
  · intro fuel sched act
    unfold limitConcurrency
    rw [hnone fuel]
    rfl
  · intro fuel sched act t ht
    rw [traceLC, hnone fuel] at ht
    simp only [List.append_nil] at ht
    have h := initLoopStates_errors_emitted fuel 3 _ t ht
    exact ⟨h.1, h.2⟩
